import Mathlib

/-!
Verification development for the `rubin-lfs-migrator` repository.

The Python sources under `src/rubin_lfs_migrator/` are shallowly embedded
below: pure string/list manipulation is translated directly; filesystem
globbing, git commands and subprocess execution are modelled by explicit
state records, event traces and `Except`-valued functions (a Python
exception becomes an `Except.error`).  Each theorem at the end of the file
settles one claim about the code.
-/

namespace RubinLfs

/-- Python exception kinds that the embedded code can raise. -/
inductive PyErr where
  | valueError : PyErr
  | runtimeError : PyErr
  | indexError : PyErr
  | keyError : PyErr
  | osError : PyErr
  | unboundLocalError : PyErr
deriving DecidableEq

/-! ### String helpers

Python string primitives (`str.split`, `str.find`) are modelled over
`List Char`.  `splitOnPred p` mirrors Python `str.split(sep)` for a
single-character separator: it keeps empty fields, so
`splitOnPred (· == '=') "a==b"` gives `["a", "", "b"]`, exactly like
`"a==b".split("=")`. -/

def splitOnPred (p : Char → Bool) : List Char → List (List Char)
  | [] => [[]]
  | c :: cs =>
    if p c then [] :: splitOnPred p cs
    else
      match splitOnPred p cs with
      | [] => [[c]]
      | h :: t => (c :: h) :: t

/-- Python `m.split("=")`. -/
def splitEq (m : String) : List String :=
  (splitOnPred (fun c => c == '=') m.toList).map String.mk

/-- Python `str.split()` with no argument: split on whitespace runs and
drop empty fields.  `line.strip().split()` coincides with this. -/
def pySplit (s : String) : List String :=
  ((splitOnPred Char.isWhitespace s.toList).filter (fun l => l ≠ [])).map String.mk

/-- Does the character list `needle` occur as a contiguous sublist of
`hay`?  Models Python `hay.find(needle) != -1`. -/
def matchesAt : List Char → List Char → Bool
  | [], _ => true
  | _ :: _, [] => false
  | p :: ps, c :: cs => p == c && matchesAt ps cs

def containsSub (hay needle : List Char) : Bool :=
  hay.tails.any (fun t => matchesAt needle t)

/-! ### `Migrator._is_lfs_attribute` (migrator.py lines 161-191)

The line has already been tokenized by `line.strip().split()` into
`fields`.  The middle tokens `fields[1:-1]` are scanned; a token without
an `=` is skipped (`m.find("=") == -1`), otherwise Python executes
`k, v = m.split("=")`, which raises `ValueError` when the split does not
have exactly two parts (i.e. the token holds two or more `=` signs). -/

def midsScan : List String → Except PyErr Bool
  | [] => .ok true
  | m :: rest =>
    if m.toList.contains '=' = false then midsScan rest
    else
      match splitEq m with
      | [k, v] =>
        if ¬(k = "filter" ∨ k = "diff" ∨ k = "merge") then .ok false
        else if v ≠ "lfs" then .ok false
        else midsScan rest
      | _ => .error .valueError

def is_lfs_attribute (fields : List String) : Except PyErr Bool :=
  match fields.getLast? with
  | none => .ok false
  | some notext =>
    if notext ≠ "-text" ∧ notext ≠ "-crlf" then .ok false
    else midsScan ((fields.drop 1).dropLast)

/-- Spec-side classifier for claim C3, following the claim's words: the
line qualifies iff the last token is `-text` or `-crlf` and every middle
token containing `=` parses as `key=value` with the key in
filter/diff/merge and the value `lfs`; middle tokens without `=` are
tolerated. -/
def parsesAsKV (m : String) : Bool :=
  match splitEq m with
  | [k, v] => (k == "filter" || k == "diff" || k == "merge") && v == "lfs"
  | _ => false

def lfsQualifyingSpec (fields : List String) : Bool :=
  match fields.getLast? with
  | none => false
  | some last =>
    (last == "-text" || last == "-crlf")
      && ((fields.drop 1).dropLast).all
        (fun m => !(m.toList.contains '=') || parsesAsKV m)

/-- Number of `=` characters in a token. -/
def countEq (m : String) : Nat :=
  (m.toList.filter (fun c => c == '=')).length

/-! ### `external.run` (external.py lines 15-50)

The subprocess call is abstracted into its observable outcome.  In the
source, the `return ProcessResult(stdout="", stderr="", rc=127)` for the
timeout case sits inside the `if logger:` block; when no logger was
passed and the timeout fires, control falls through to
`stdout = proc.stdout.decode()` where `proc` was never assigned, which
raises `UnboundLocalError`. -/

structure ProcessResult where
  stdout : String
  stderr : String
  rc : Int
deriving DecidableEq

inductive RunOutcome where
  | timeout : RunOutcome
  | completed (stdout stderr : String) (rc : Int) : RunOutcome

def run (hasLogger : Bool) (outcome : RunOutcome) : Except PyErr ProcessResult :=
  match outcome with
  | .timeout =>
    if hasLogger then .ok ⟨"", "", 127⟩
    else .error .unboundLocalError
  | .completed out err rc => .ok ⟨out, err, rc⟩

/-! ### `Migrator._get_lfs_file_list` (migrator.py lines 137-159)

The filesystem is abstracted by `glob : String → List String`, mapping a
glob pattern to the paths it expands to under the `.gitattributes`
directory (`pdir.glob(match)` in the source).  `find_lfs_files`
(lines 193-214) prepends `"**/"` to the pattern and globs. -/

def find_lfs_files (glob : String → List String) (pat : String) : List String :=
  glob ("**/" ++ pat)

/-- One pass over the attribute-file lines: for every line whose fields
classify as an LFS attribute, extend the file list with the expansion of
the line's first field.  A `ValueError` from `_is_lfs_attribute`
propagates out of the loop. -/
def includedFiles (glob : String → List String) : List String → Except PyErr (List String)
  | [] => .ok []
  | line :: rest =>
    match is_lfs_attribute (pySplit line) with
    | .error e => .error e
    | .ok q =>
      match includedFiles glob rest with
      | .error e => .error e
      | .ok tl =>
        if q then
          match pySplit line with
          | [] => .ok tl
          | pat :: _ => .ok (find_lfs_files glob pat ++ tl)
        else .ok tl

/-- Marker substring tested by `_get_excluded_file_list`
(migrator.py lines 216-232): `line.find("!filter !diff !merge") != -1`. -/
def exclusionMarker : List Char := "!filter !diff !merge".toList

def isExclusionLine (line : String) : Bool :=
  containsSub line.toList exclusionMarker

/-- `Migrator._get_excluded_file_list`: every line containing the
exclusion marker contributes the expansion of `line.split()[0]`
(an empty split would raise `IndexError`; it cannot occur because a
marker-bearing line has non-whitespace characters). -/
def excludedFiles (glob : String → List String) : List String → Except PyErr (List String)
  | [] => .ok []
  | line :: rest =>
    if isExclusionLine line then
      match pySplit line with
      | [] => .error .indexError
      | pat :: _ =>
        match excludedFiles glob rest with
        | .error e => .error e
        | .ok tl => .ok (find_lfs_files glob pat ++ tl)
    else
      excludedFiles glob rest

/-- `Migrator._get_lfs_file_list`: included files minus excluded files,
as sets (`fileset - excset` in the source). -/
def get_lfs_file_list (glob : String → List String) (lines : List String) :
    Except PyErr (Finset String) :=
  match includedFiles glob lines with
  | .error e => .error e
  | .ok files =>
    match excludedFiles glob lines with
    | .error e => .error e
    | .ok excluded => .ok (files.toFinset \ excluded.toFinset)

/-- First whitespace-separated token of a line (`line.split()[0]`),
defaulting to the empty string on an all-whitespace line. -/
def linePat (line : String) : String :=
  match pySplit line with
  | [] => ""
  | pat :: _ => pat

/-- Does the line classify as an LFS attribute declaration? -/
def qualifiesLfs (line : String) : Bool :=
  match is_lfs_attribute (pySplit line) with
  | .ok true => true
  | _ => false

/-- Spec-side set for claim C1: union of the expansions of all
LFS-qualifying patterns. -/
def includedSet (glob : String → List String) (lines : List String) : Finset String :=
  ((lines.filter qualifiesLfs).flatMap (fun l => find_lfs_files glob (linePat l))).toFinset

/-- Spec-side set for claim C1: union of the expansions of all
explicit-exclusion patterns. -/
def excludedSet (glob : String → List String) (lines : List String) : Finset String :=
  ((lines.filter isExclusionLine).flatMap (fun l => find_lfs_files glob (linePat l))).toFinset

/-! ### Glob semantics for claim C4

`pathlib.Path.glob` is the external collaborator here; it is modelled
over paths represented as component lists.  Pattern parsing mirrors
pathlib: the pattern string is split on `/` and empty components are
dropped (so `"**//a"` parses like `"**/a"`).  A `**` component matches
any number (possibly zero) of leading path components; a `*` component
matches exactly one; any other component matches itself literally. -/

def parsePat (s : String) : List String :=
  ((splitOnPred (fun c => c == '/') s.toList).filter (fun l => l ≠ [])).map String.mk

def globMatch : List String → List String → Bool
  | [], path => path.isEmpty
  | p :: ps, path =>
    if p = "**" then
      path.tails.any (fun t => globMatch ps t)
    else
      match path with
      | [] => false
      | c :: rest => (p = "*" ∨ p = c) && globMatch ps rest

/-- Expansion of one pattern over a fixed directory tree (the list of
all file paths below the attribute file's directory). -/
def globExpand (tree : List (List String)) (pat : String) : List (List String) :=
  tree.filter (fun path => globMatch (parsePat pat) path)

/-- The code's expansion (`_find_lfs_files` / `_find_co_lfs_files`):
unconditionally prepend `"**/"` and glob. -/
def codeExpand (tree : List (List String)) (pat : String) : List (List String) :=
  globExpand tree ("**/" ++ pat)

/-- Spec-side expansion for claim C4, following the claim's words: a
pattern starting with `/` is rooted at the attribute file's directory
with the slash stripped; a pattern already starting with `**/` is left
unchanged; any other pattern gets `**/` prefixed. -/
def claimExpand (tree : List (List String)) (pat : String) : List (List String) :=
  match pat.toList with
  | '/' :: rest => globExpand tree (String.mk rest)
  | '*' :: '*' :: '/' :: _ => globExpand tree pat
  | _ => globExpand tree ("**/" ++ pat)

/-! ### Migrator git-state model (claims C5, C6, C7)

The git repository is abstracted to its branch pointers (name and
commit) and the active branch; mutating git operations are recorded as
events in a trace.  `GitMut.gitCommit` is the only event that creates a
commit. -/

inductive GitMut where
  | createBranch (name : String) : GitMut
  | checkoutBranch (name : String) : GitMut
  | writeFile (name : String) : GitMut
  | setLocalConfig : GitMut
  | gitAdd : GitMut
  | gitRm : GitMut
  | gitCommit : GitMut
  | gitPush : GitMut
deriving DecidableEq

structure GitState where
  branches : List (String × Nat)
  active : String
deriving DecidableEq

def headCommit (s : GitState) : Nat :=
  (s.branches.lookup s.active).getD 0

/-- `Migrator._checkout_migration_branch` (migrator.py lines 120-135).
`repo.create_head(name)` follows GitPython semantics: if the branch
already exists and points at the same commit as `HEAD`, it is returned
without touching anything; if it exists pointing elsewhere, creation
raises `OSError`; otherwise the ref is created at `HEAD`.  The method
then raises `RuntimeError` when the resulting branch is the active one,
and checks it out otherwise.  The trace of git mutations is returned
next to the outcome so that aborted runs can still be inspected. -/
def checkout_migration_branch (dry : Bool) (mig : String) (s : GitState) :
    List GitMut × Except PyErr GitState :=
  if dry then ([], .ok s)
  else
    match s.branches.lookup mig with
    | some c =>
      if c ≠ headCommit s then ([], .error .osError)
      else if s.active = mig then ([], .error .runtimeError)
      else ([.checkoutBranch mig], .ok { s with active := mig })
    | none =>
      let s1 : GitState := { s with branches := (mig, headCommit s) :: s.branches }
      if s1.active = mig then ([.createBranch mig], .error .runtimeError)
      else ([.createBranch mig, .checkoutBranch mig], .ok { s1 with active := mig })

/-- `Migrator._update_lfsconfig` mutations (lines 344-363): rewrite
`.lfsconfig`, stage, commit, push -- or nothing in a dry run. -/
def update_lfsconfig_muts (dry : Bool) : List GitMut :=
  if dry then []
  else [.writeFile ".lfsconfig", .gitAdd, .gitCommit, .gitPush]

/-- `Migrator._remove_and_readd` mutations (lines 234-271): set the
write URL, `rm --cached`, commit, push, re-add, commit, push, reset the
URL -- or nothing in a dry run. -/
def remove_and_readd_muts (dry : Bool) : List GitMut :=
  if dry then []
  else [.setLocalConfig, .gitRm, .gitCommit, .gitPush,
        .gitAdd, .gitCommit, .gitPush, .setLocalConfig]

/-- `Migrator._push_workflow_files` (lines 397-404): `client.add` and
`client.commit` are invoked unconditionally; only the final push is
guarded by the dry-run flag. -/
def push_workflow_files_muts (dry : Bool) : List GitMut :=
  [.gitAdd, .gitCommit] ++ (if dry then [] else [.gitPush])

/-- `Migrator._update_workflow_files` (lines 383-395): rewrite each
matching workflow file (log only in a dry run), then push. -/
def update_workflow_files_muts (dry : Bool) (wf : List String) : List GitMut :=
  (if dry then [] else wf.map GitMut.writeFile) ++ push_workflow_files_muts dry

/-- Inputs of one `Migrator.execute` run: the located configuration
files and the workflow candidates (file name paired with whether its
text contains the original LFS URL), plus the git state.  The model
covers the zero-or-one `.gitattributes` case; several attribute files
raise before anything else happens. -/
structure MigInput where
  dryRun : Bool
  lfsconfigPresent : Bool
  gitattributes : Option (List String)
  wfCandidates : List (String × Bool)
  migrationBranch : String
  git : GitState

/-- Managed-file set computed at the start of `execute`
(migrator.py lines 86-89): `_get_lfs_file_list` runs only when
`.lfsconfig` exists, and returns early when no `.gitattributes` was
found. -/
def managedFilesOf (glob : String → List String) (inp : MigInput) :
    Except PyErr (Finset String) :=
  if inp.lfsconfigPresent then
    match inp.gitattributes with
    | none => .ok ∅
    | some lines => get_lfs_file_list glob lines
  else .ok ∅

/-- Workflow files whose contents mention the original LFS URL
(`_get_wf_files`, lines 365-381). -/
def wfFilesOf (inp : MigInput) : List String :=
  (inp.wfCandidates.filter (fun c => c.2)).map (fun c => c.1)

/-- `Migrator.execute` (migrator.py lines 80-105) as a trace-producing
function.  The no-op guard is the source's
`if self._lfsconfig is None and not self._wf_files`. -/
def executeM (glob : String → List String) (inp : MigInput) :
    List GitMut × Except PyErr GitState :=
  match managedFilesOf glob inp with
  | .error e => ([], .error e)
  | .ok lfsFiles =>
    if ¬inp.lfsconfigPresent ∧ wfFilesOf inp = [] then ([], .ok inp.git)
    else
      match checkout_migration_branch inp.dryRun inp.migrationBranch inp.git with
      | (t1, .error e) => (t1, .error e)
      | (t1, .ok g1) =>
        (t1
          ++ (if inp.lfsconfigPresent then update_lfsconfig_muts inp.dryRun else [])
          ++ (if lfsFiles ≠ ∅ then remove_and_readd_muts inp.dryRun else [])
          ++ (if wfFilesOf inp ≠ [] then
                update_workflow_files_muts inp.dryRun (wfFilesOf inp)
              else []),
         .ok g1)

/-! ### ObjectCopier model (claims C2, C10)

File contents are abstract (`Content := String`) and the SHA-256 hex
digest is an abstract function `hash : Content → String`; the code's
identifier is `"sha256:" ++ hash c` (`_update_oids`, obj_copier.py
lines 272-280).  `_checkout_lfs_files` and `_have_oid` are Python
dictionaries, modelled as `Option`-valued functions (`none` = key
absent); `uploads` is a ghost trace recording, for every file pushed by
`_copy_lfs_files_for_co`, the pair (checkout, identifier). -/

abbrev Content := String

structure OCState where
  ledger : String → String → Option String
  haveOid : String → Option (String × String)
  uploads : List (String × String)

def ocInit : OCState :=
  { ledger := fun _ _ => none, haveOid := fun _ => none, uploads := [] }

def mkOid (hash : Content → String) (c : Content) : String :=
  "sha256:" ++ hash c

def ledgerSet (st : OCState) (co fn oid : String) : OCState :=
  { st with ledger := fun c f => if c = co ∧ f = fn then some oid else st.ledger c f }

/-- Common shape of the two ledger-writing loops: set each file's entry
for checkout `co` to `val fc`. -/
def ledgerFold (co : String) (val : String × Content → String)
    (files : List (String × Content)) (st : OCState) : OCState :=
  files.foldl (fun s fc => ledgerSet s co fc.1 (val fc)) st

/-- obj_copier.py lines 77-81: each managed file's ledger entry is
initialised to the empty string. -/
def ledgerInitCo (st : OCState) (co : String) (files : List (String × Content)) : OCState :=
  ledgerFold co (fun _ => "") files st

/-- `ObjectCopier._update_oids` (obj_copier.py lines 272-280). -/
def update_oids (hash : Content → String) (co : String)
    (files : List (String × Content)) (st : OCState) : OCState :=
  ledgerFold co (fun fc => mkOid hash fc.2) files st

/-- `ObjectCopier._check_for_needed_files` (obj_copier.py lines
94-107): a missing ledger entry would be a `KeyError`, an empty
identifier raises `RuntimeError` ("has no oid"), and a file is needed
iff its identifier is not a key of `_have_oid`. -/
def check_for_needed_files (st : OCState) (co : String) :
    List (String × Content) → Except PyErr (List (String × Content))
  | [] => .ok []
  | fc :: rest =>
    match st.ledger co fc.1 with
    | none => .error .keyError
    | some oid =>
      if oid = "" then .error .runtimeError
      else
        match check_for_needed_files st co rest with
        | .error e => .error e
        | .ok tl =>
          if (st.haveOid oid).isNone then .ok (fc :: tl)
          else .ok tl

/-- `ObjectCopier._copy_lfs_files_for_co` (obj_copier.py lines
205-270), restricted to its bookkeeping effect: in a dry run it returns
before uploading; otherwise the needed files are pushed and each file's
ledger identifier is recorded in `_have_oid` keyed by identifier
(lines 253-256). -/
def copy_lfs_files_for_co (dry : Bool) (co : String)
    (files : List (String × Content)) (st : OCState) : OCState :=
  if dry then st
  else
    files.foldl
      (fun s fc =>
        let oid := (s.ledger co fc.1).getD ""
        { s with
          haveOid := fun o => if o = oid then some (co, fc.1) else s.haveOid o,
          uploads := s.uploads ++ [(co, oid)] })
      st

/-- `ObjectCopier._loop_over_item` (obj_copier.py lines 48-92).
`coFiles co` is the managed-file list computed for checkout `co`
(`none` models the early returns for a missing `.lfsconfig` or
`.gitattributes`; the empty list models "no LFS files managed"). -/
def loop_over_item (hash : Content → String) (dry : Bool)
    (coFiles : String → Option (List (String × Content)))
    (st : OCState) (co : String) : Except PyErr OCState :=
  match coFiles co with
  | none => .ok st
  | some files =>
    if files = [] then .ok st
    else
      let s2 := update_oids hash co files (ledgerInitCo st co files)
      match check_for_needed_files s2 co files with
      | .error e => .error e
      | .ok needed =>
        if needed = [] then .ok s2
        else .ok (copy_lfs_files_for_co dry co needed s2)

/-- The checkout loop body over a list of checkouts. -/
def loopList (hash : Content → String) (dry : Bool)
    (coFiles : String → Option (List (String × Content))) :
    List String → OCState → Except PyErr OCState
  | [], st => .ok st
  | co :: rest, st =>
    match loop_over_item hash dry coFiles st co with
    | .error e => .error e
    | .ok st' => loopList hash dry coFiles rest st'

/-- `ObjectCopier._loop` (obj_copier.py lines 39-46): all selected
branches, then all tags. -/
def oc_loop (hash : Content → String) (dry : Bool)
    (coFiles : String → Option (List (String × Content)))
    (branches tags : List String) (st : OCState) : Except PyErr OCState :=
  loopList hash dry coFiles (branches ++ tags) st

/-- Does checkout `co` hold a file whose content identifier is `ω`? -/
def coHasOid (hash : Content → String)
    (coFiles : String → Option (List (String × Content)))
    (ω : String) (co : String) : Bool :=
  match coFiles co with
  | none => false
  | some files => files.any (fun fc => mkOid hash fc.2 == ω)

/-! ### OidMapper model (claim C8)

`OidMapper._update_oids` (oid_mapper.py lines 51-82) walks the stub
files.  A file is abstracted to its name, whether it is a symlink, and
its decoded text lines; `content = none` models a file whose text
decode raises `UnicodeDecodeError` (caught by the source), which for a
binary file fires before any line is yielded. -/

structure MFile where
  name : String
  isSymlink : Bool
  content : Option (List String)

structure OMState where
  ledger : String → String → Option String
  oids : List String

/-- Scan decoded lines for the first whose first token is `oid`; its
second token is the identifier (`fields[1]`, an `IndexError` when the
line has no second token). -/
def scan_for_oid : List String → Except PyErr (Option String)
  | [] => .ok none
  | ln :: rest =>
    match pySplit ln with
    | [] => scan_for_oid rest
    | t :: ts =>
      if t ≠ "oid" then scan_for_oid rest
      else
        match ts with
        | [] => .error .indexError
        | oid :: _ => .ok (some oid)

/-- Python `self._oids[oid] = True`: key insertion into a dict. -/
def insertOid (l : List String) (oid : String) : List String :=
  if oid ∈ l then l else l ++ [oid]

/-- One iteration of the `for fn in files` loop of
`OidMapper._update_oids`: symlinks are warned about and their ledger
entry deleted (`del`, a `KeyError` when absent); an undecodable file is
warned about and skipped; otherwise the file's lines are scanned and a
found identifier is recorded in the ledger and the oid map. -/
def om_update_one (co : String) (st : OMState) (f : MFile) : Except PyErr OMState :=
  if f.isSymlink then
    match st.ledger co f.name with
    | none => .error .keyError
    | some _ =>
      .ok { st with
            ledger := fun c n => if c = co ∧ n = f.name then none else st.ledger c n }
  else
    match f.content with
    | none => .ok st
    | some lines =>
      match scan_for_oid lines with
      | .error e => .error e
      | .ok none => .ok st
      | .ok (some oid) =>
        .ok { ledger := fun c n => if c = co ∧ n = f.name then some oid else st.ledger c n,
              oids := insertOid st.oids oid }

def om_update_oids (co : String) : List MFile → OMState → Except PyErr OMState
  | [], st => .ok st
  | f :: rest, st =>
    match om_update_one co st f with
    | .error e => .error e
    | .ok st' => om_update_oids co rest st'

/-- oid_mapper.py lines 44-48: before `_update_oids` runs, each managed
file's ledger entry for the checkout is initialised to `""`. -/
def om_init (co : String) (files : List MFile) (st : OMState) : OMState :=
  files.foldl
    (fun s f => { s with
                  ledger := fun c n => if c = co ∧ n = f.name then some "" else s.ledger c n })
    st

/-- A file's scan cannot raise (its lines, when decodable, are
well-formed enough that `fields[1]` exists whenever `fields[0] = "oid"`). -/
def scanOk (f : MFile) : Prop :=
  ∀ lines, f.content = some lines → ∃ r, scan_for_oid lines = .ok r

/-! ### Concrete instances used by witnesses and counterexamples -/

/-- A fixed directory tree for claim C1's witness: `*.bin` expands to
two files, `b.bin` to one of them. -/
def globW : String → List String := fun pat =>
  if pat = "**/*.bin" then ["data/a.bin", "data/b.bin"]
  else if pat = "**/b.bin" then ["data/b.bin"]
  else []

def linesW : List String :=
  ["*.bin filter=lfs diff=lfs merge=lfs -text", "b.bin !filter !diff !merge"]

def sW : Finset String :=
  match get_lfs_file_list globW linesW with
  | .ok s => s
  | .error _ => ∅

/-- Tree for claim C4: the file `a` at the root and below `sub`. -/
def treeW : List (List String) := [["a"], ["sub", "a"]]

/-- Checkout contents for claim C2's witness: a branch and a tag whose
single managed files differ in path but share the content `"X"`. -/
def coFilesW : String → Option (List (String × Content)) := fun co =>
  if co = "b1" then some [("f1", "X")]
  else if co = "t1" then some [("f2", "X")]
  else none

def hashW : Content → String := fun c => c

def ocStW : OCState :=
  match oc_loop hashW false coFilesW ["b1"] ["t1"] ocInit with
  | .ok s => s
  | .error _ => ocInit

/-- Git state for claim C5's witness: the migration branch is already
the active branch. -/
def gitW : GitState := { branches := [("migrate", 5)], active := "migrate" }

def globEmpty : String → List String := fun _ => []

/-- Input refuting claim C6 as stated: `.lfsconfig` exists but the
managed-file set is empty and no workflow file matches. -/
def inpC6 : MigInput :=
  { dryRun := false
    lfsconfigPresent := true
    gitattributes := none
    wfCandidates := []
    migrationBranch := "migrate"
    git := { branches := [("main", 0)], active := "main" } }

/-- Input on which the C6 amendment's no-op branch is taken. -/
def inpC6W : MigInput :=
  { dryRun := false
    lfsconfigPresent := false
    gitattributes := none
    wfCandidates := [("ci.yaml", false)]
    migrationBranch := "migrate"
    git := { branches := [("main", 0)], active := "main" } }

/-- Dry-run input exhibiting the C7 bug: one workflow file matches the
original LFS URL. -/
def inpC7 : MigInput :=
  { dryRun := true
    lfsconfigPresent := false
    gitattributes := none
    wfCandidates := [("ci.yaml", true)]
    migrationBranch := "migrate"
    git := { branches := [("main", 0)], active := "main" } }

/-- Files for claim C8's witness: a symlink, an undecodable file, and a
well-formed pointer stub. -/
def mfilesW : List MFile :=
  [{ name := "link.bin", isSymlink := true, content := some [] },
   { name := "raw.bin", isSymlink := false, content := none },
   { name := "good.bin", isSymlink := false, content := some ["oid sha256:abc"] }]

def omStW : OMState := { ledger := fun _ _ => none, oids := [] }

/-! ### Theorems -/

/-- Claim C9: the code contradicts the claim.  When the timeout fires
and no logger was passed, `run` raises `UnboundLocalError` (the sentinel
`ProcessResult(rc=127)` return is nested inside `if logger:`); with a
logger it does return the rc-127 sentinel. -/
theorem C9_timeout_sentinel_depends_on_logger :
    run false RunOutcome.timeout = .error .unboundLocalError
    ∧ run true RunOutcome.timeout = .ok { stdout := "", stderr := "", rc := 127 } :=
  ⟨rfl, rfl⟩

/-- Claim C7: the code contradicts the claim.  In a dry run with a
matching workflow file, `execute` still performs `git add` and
`git commit` (`_push_workflow_files` guards only the push behind the
dry-run flag), so the dry-run trace of git mutations is not empty. -/
theorem C7_dry_run_still_commits :
    inpC7.dryRun = true
    ∧ (executeM globEmpty inpC7).1 = [GitMut.gitAdd, GitMut.gitCommit]
    ∧ (executeM globEmpty inpC7).1 ≠ [] := by
  refine ⟨rfl, rfl, ?_⟩
  decide

/-- Claim C6, counterexample: with `.lfsconfig` present but an empty
managed-file set and no matching workflow file, `execute` still mutates
the repository (branch creation and checkout, `.lfsconfig` rewrite,
add, commit, push), refuting "zero git mutations iff neither a
managed-file set nor any workflow file was found". -/
theorem C6_counterexample :
    inpC6.dryRun = false
    ∧ managedFilesOf globEmpty inpC6 = .ok (∅ : Finset String)
    ∧ wfFilesOf inpC6 = []
    ∧ (executeM globEmpty inpC6).1 =
        [GitMut.createBranch "migrate", GitMut.checkoutBranch "migrate",
         GitMut.writeFile ".lfsconfig", GitMut.gitAdd, GitMut.gitCommit, GitMut.gitPush]
    ∧ (executeM globEmpty inpC6).1 ≠ [] := by
  refine ⟨rfl, rfl, rfl, rfl, ?_⟩
  decide

/-- Helper: a non-dry checkout of the migration branch that succeeds
always records at least the checkout itself in the mutation trace. -/
theorem checkout_ok_trace_ne_nil (mig : String) (s : GitState) (t1 : List GitMut)
    (g1 : GitState) (h : checkout_migration_branch false mig s = (t1, .ok g1)) :
    t1 ≠ [] := by
  unfold checkout_migration_branch at h
  simp only [Bool.false_eq_true, if_false] at h
  split at h
  · split at h
    · exact absurd (congrArg Prod.snd h) (by simp)
    · split at h
      · exact absurd (congrArg Prod.snd h) (by simp)
      · have hfst := congrArg Prod.fst h
        simp only [] at hfst
        rw [← hfst]
        simp
  · split at h
    · exact absurd (congrArg Prod.snd h) (by simp)
    · have hfst := congrArg Prod.fst h
      simp only [] at hfst
      rw [← hfst]
      simp

/-- Helper: when the migration branch is already active, the non-dry
checkout aborts with `RuntimeError`, with a trace that is either empty
(branch already existed at `HEAD`) or a single ref creation. -/
theorem checkout_active_characterization (mig : String) (s : GitState)
    (h : s.active = mig) :
    checkout_migration_branch false mig s = ([], .error .runtimeError)
    ∨ checkout_migration_branch false mig s
        = ([.createBranch mig], .error .runtimeError) := by
  unfold checkout_migration_branch
  simp only [Bool.false_eq_true, if_false]
  split
  · rename_i c heq
    left
    have hhead : headCommit s = c := by
      unfold headCommit
      rw [h, heq]
      rfl
    rw [if_neg (by rw [hhead]; exact fun hne => hne rfl), if_pos h]
  · right
    rw [if_pos (show s.active = mig from h)]

/-- Claim C5: in a non-dry-run session, when the migration branch is
already the currently active branch, `_checkout_migration_branch`
fails with a `RuntimeError` precondition error, no commit is created,
and `execute` never records a commit on such a repository state. -/
theorem C5_active_migration_branch_fails (mig : String) (s : GitState)
    (h : s.active = mig) :
    (checkout_migration_branch false mig s).2 = .error .runtimeError
    ∧ GitMut.gitCommit ∉ (checkout_migration_branch false mig s).1
    ∧ ∀ (glob : String → List String) (inp : MigInput),
        inp.dryRun = false → inp.git = s → inp.migrationBranch = mig →
        GitMut.gitCommit ∉ (executeM glob inp).1 := by
  rcases checkout_active_characterization mig s h with hc | hc
  all_goals refine ⟨by rw [hc], by rw [hc]; simp, ?_⟩
  all_goals
    intro glob inp hdry hgit hmig
  all_goals
    unfold executeM
  all_goals
    split
  · simp
  · split
    · simp
    · rw [hdry, hgit, hmig, hc]
      simp
  · simp
  · split
    · simp
    · rw [hdry, hgit, hmig, hc]
      simp

/-- Witness for claim C5 at a concrete git state whose active branch is
the migration branch. -/
theorem C5_witness :
    gitW.active = "migrate"
    ∧ ((checkout_migration_branch false "migrate" gitW).2 = .error .runtimeError
       ∧ GitMut.gitCommit ∉ (checkout_migration_branch false "migrate" gitW).1
       ∧ ∀ (glob : String → List String) (inp : MigInput),
           inp.dryRun = false → inp.git = gitW → inp.migrationBranch = "migrate" →
           GitMut.gitCommit ∉ (executeM glob inp).1) :=
  ⟨rfl, C5_active_migration_branch_fails "migrate" gitW rfl⟩

/-- Claim C6 (amended): a completed non-dry `execute` run performs zero
git mutations iff no `.lfsconfig` was found and no workflow file
references the old backend URL (the source's no-op guard tests
`.lfsconfig` presence, not the managed-file set). -/
theorem C6_amended_noop_guard (glob : String → List String) (inp : MigInput)
    (t : List GitMut) (g : GitState) (hdry : inp.dryRun = false)
    (h : executeM glob inp = (t, .ok g)) :
    t = [] ↔ (inp.lfsconfigPresent = false ∧ wfFilesOf inp = []) := by
  unfold executeM at h
  split at h
  · exact absurd (congrArg Prod.snd h) (by simp)
  · split at h
    · rename_i hguard
      have ht : t = [] := (congrArg Prod.fst h).symm
      subst ht
      simp only [true_iff]
      exact ⟨by simpa using hguard.1, hguard.2⟩
    · rename_i hguard
      split at h
      · exact absurd (congrArg Prod.snd h) (by simp)
      · rename_i t1 g1 heq
        rw [hdry] at heq
        have ht1 : t1 ≠ [] := checkout_ok_trace_ne_nil _ _ _ _ heq
        constructor
        · intro h0
          have hfst := congrArg Prod.fst h
          rw [h0] at hfst
          simp only [List.append_eq_nil] at hfst
          exact absurd hfst.1.1.1 ht1
        · intro hrhs
          exact absurd ⟨by simp [hrhs.1], hrhs.2⟩ hguard

/-- Witness for the amended claim C6: on an input with no `.lfsconfig`
and no matching workflow file, the completed run's trace is empty iff
the guard holds (and it does). -/
theorem C6_amended_witness :
    inpC6W.dryRun = false
    ∧ executeM globEmpty inpC6W = ([], .ok inpC6W.git)
    ∧ (([] : List GitMut) = [] ↔
        (inpC6W.lfsconfigPresent = false ∧ wfFilesOf inpC6W = [])) :=
  ⟨rfl, rfl, C6_amended_noop_guard globEmpty inpC6W [] inpC6W.git rfl rfl⟩

/-- Helper: splitting never yields an empty list of fields. -/
theorem splitOnPred_ne_nil (p : Char → Bool) (l : List Char) : splitOnPred p l ≠ [] := by
  cases l with
  | nil => simp [splitOnPred]
  | cons c cs =>
    unfold splitOnPred
    by_cases hp : p c = true
    · rw [if_pos hp]; simp
    · rw [if_neg hp]
      split
      · simp
      · simp

/-- Helper: the number of fields is the number of separators plus one. -/
theorem splitOnPred_length (p : Char → Bool) :
    ∀ l : List Char, (splitOnPred p l).length = (l.filter p).length + 1 := by
  intro l
  induction l with
  | nil => rfl
  | cons c cs ih =>
    unfold splitOnPred
    by_cases hp : p c = true
    · rw [if_pos hp]
      simp [List.filter_cons, hp, ih]
    · rw [if_neg hp]
      cases hr : splitOnPred p cs with
      | nil => exact absurd hr (splitOnPred_ne_nil p cs)
      | cons hd tl =>
        rw [hr] at ih
        simp only [List.length_cons, List.filter_cons, hp] at ih ⊢
        simp only [Bool.false_eq_true, if_false]
        omega

/-- Helper: a token containing `=` has at least one `=`. -/
theorem countEq_pos_of_contains (m : String) (hc : m.toList.contains '=' = true) :
    1 ≤ countEq m := by
  unfold countEq
  have hmem : '=' ∈ m.toList := by simpa using hc
  have hmf : '=' ∈ m.toList.filter (fun c => c == '=') :=
    List.mem_filter.mpr ⟨hmem, by simp⟩
  have hne := List.ne_nil_of_mem hmf
  have hpos := List.length_pos.mpr hne
  omega

/-- Helper: a token with exactly one `=` splits into exactly two parts. -/
theorem splitEq_pair_of_countEq_one (m : String) (h1 : countEq m = 1) :
    ∃ k v, splitEq m = [k, v] := by
  have hlen : (splitEq m).length = 2 := by
    unfold splitEq
    rw [List.length_map, splitOnPred_length]
    unfold countEq at h1
    omega
  exact List.length_eq_two.mp hlen

/-- Helper: on middle tokens with at most one `=` each, the source's
scan computes exactly the claim's per-token conjunction. -/
theorem midsScan_eq_all (mids : List String)
    (h : ∀ m ∈ mids, countEq m ≤ 1) :
    midsScan mids
      = .ok (mids.all (fun m => !(m.toList.contains '=') || parsesAsKV m)) := by
  induction mids with
  | nil => rfl
  | cons m rest ih =>
    have hm := h m (List.mem_cons_self m rest)
    have hrest : ∀ x ∈ rest, countEq x ≤ 1 :=
      fun x hx => h x (List.mem_cons_of_mem m hx)
    unfold midsScan
    by_cases hc : m.toList.contains '=' = false
    · have hp : (!(m.toList.contains '=') || parsesAsKV m) = true := by
        rw [hc]
        rfl
      rw [if_pos hc, ih hrest]
      simp only [List.all_cons, hp, Bool.true_and]
    · rw [if_neg hc]
      have hc' : m.toList.contains '=' = true := by
        revert hc; cases m.toList.contains '=' <;> simp
      have h1 : countEq m = 1 := le_antisymm hm (countEq_pos_of_contains m hc')
      obtain ⟨k, v, hkv⟩ := splitEq_pair_of_countEq_one m h1
      simp only [hkv]
      by_cases hk : k = "filter" ∨ k = "diff" ∨ k = "merge"
      · rw [if_neg (not_not.mpr hk)]
        by_cases hv : v = "lfs"
        · rw [if_neg (by simp [hv]), ih hrest]
          have hp : (!(m.toList.contains '=') || parsesAsKV m) = true := by
            simp only [parsesAsKV, hkv]
            rcases hk with hk | hk | hk <;> simp [hk, hv]
          simp only [List.all_cons, hp, Bool.true_and]
        · rw [if_pos hv]
          have hp : (!(m.toList.contains '=') || parsesAsKV m) = false := by
            simp only [parsesAsKV, hkv, hc']
            simp [hv]
          simp only [List.all_cons, hp, Bool.false_and]
      · rw [if_pos hk]
        have hp : (!(m.toList.contains '=') || parsesAsKV m) = false := by
          push_neg at hk
          simp only [parsesAsKV, hkv, hc']
          simp [hk.1, hk.2.1, hk.2.2]
        simp only [List.all_cons, hp, Bool.false_and]

/-- Claim C3, counterexample: on the line
`*.bin filter=lfs=lfs -text` the middle token does not parse as
`key=value`, so the claim's iff says the line is classified as not
qualifying; the code instead raises `ValueError` from
`k, v = m.split("=")` and classifies nothing. -/
theorem C3_counterexample :
    is_lfs_attribute ["*.bin", "filter=lfs=lfs", "-text"]
      ≠ .ok (lfsQualifyingSpec ["*.bin", "filter=lfs=lfs", "-text"]) := by
  intro hcontra
  have h1 : is_lfs_attribute ["*.bin", "filter=lfs=lfs", "-text"]
      = .error .valueError := by rfl
  rw [h1] at hcontra
  exact Except.noConfusion hcontra

/-- Claim C3 (amended): restricted to lines whose middle tokens each
contain at most one `=`, `_is_lfs_attribute` classifies a
whitespace-tokenized line as LFS-qualifying iff the last token is
`-text` or `-crlf` and every middle token containing `=` parses as
`key=value` with key in filter/diff/merge and value `lfs`; middle
tokens without `=` are tolerated.  (A middle token with two or more
`=` signs instead raises `ValueError`.) -/
theorem C3_amended_classification (fields : List String)
    (h : ∀ m ∈ (fields.drop 1).dropLast, countEq m ≤ 1) :
    is_lfs_attribute fields = .ok (lfsQualifyingSpec fields) := by
  unfold is_lfs_attribute lfsQualifyingSpec
  cases hl : fields.getLast? with
  | none => simp [hl]
  | some last =>
    simp only [hl]
    by_cases ht : last ≠ "-text" ∧ last ≠ "-crlf"
    · rw [if_pos ht]
      have hflag : (last == "-text" || last == "-crlf") = false := by
        simp [ht.1, ht.2]
      simp [hflag]
    · rw [if_neg ht]
      rw [not_and_or, not_not, not_not] at ht
      have hflag : (last == "-text" || last == "-crlf") = true := by
        rcases ht with ht | ht <;> simp [ht]
      rw [hflag, Bool.true_and]
      exact midsScan_eq_all _ h

/-- Witness for the amended claim C3 on the canonical `git lfs track`
line, which classifies as qualifying on both sides. -/
theorem C3_amended_witness :
    (∀ m ∈ ((["*.bin", "filter=lfs", "diff=lfs", "merge=lfs", "-text"].drop 1).dropLast),
        countEq m ≤ 1)
    ∧ is_lfs_attribute ["*.bin", "filter=lfs", "diff=lfs", "merge=lfs", "-text"]
        = .ok (lfsQualifyingSpec ["*.bin", "filter=lfs", "diff=lfs", "merge=lfs", "-text"]) :=
  ⟨by decide, C3_amended_classification _ (by decide)⟩

/-- Helper: scanning all suffixes of all suffixes finds exactly the
suffixes themselves. -/
theorem tails_any_tails (f : List String → Bool) (path : List String) :
    (path.tails.any fun t => t.tails.any f) = path.tails.any f := by
  cases hb : path.tails.any f with
  | false =>
    apply List.any_eq_false.mpr
    intro t ht hcontra
    obtain ⟨u, hu, hfu⟩ := List.any_eq_true.mp hcontra
    exact List.any_eq_false.mp hb u
      ((List.mem_tails _ _).mpr
        (((List.mem_tails _ _).mp hu).trans ((List.mem_tails _ _).mp ht))) hfu
  | true =>
    obtain ⟨u, hu, hfu⟩ := List.any_eq_true.mp hb
    apply List.any_eq_true.mpr
    exact ⟨path, (List.mem_tails _ _).mpr (List.suffix_refl path),
      List.any_eq_true.mpr ⟨u, hu, hfu⟩⟩

/-- Helper: a doubled recursive-match marker matches the same paths as
a single one. -/
theorem globMatch_doublestar (qs : List String) (path : List String) :
    globMatch ("**" :: "**" :: qs) path = globMatch ("**" :: qs) path := by
  have hstep : ∀ (rs : List String) (t : List String),
      globMatch ("**" :: rs) t = t.tails.any (fun u => globMatch rs u) := by
    intro rs t
    simp only [globMatch]
    simp only [if_true]
  rw [hstep ("**" :: qs) path, hstep qs path]
  simp only [hstep qs]
  exact tails_any_tails _ path

/-- Helper: splitting a pattern that starts with the recursive marker. -/
theorem splitOnPred_doublestar_slash (l : List Char) :
    splitOnPred (fun c => c == '/') ('*' :: '*' :: '/' :: l)
      = ['*', '*'] :: splitOnPred (fun c => c == '/') l := by
  simp [splitOnPred]

/-- Helper: parsing `"**/" ++ pat` prepends one `**` component. -/
theorem parsePat_prepend (pat : String) :
    parsePat ("**/" ++ pat) = "**" :: parsePat pat := by
  unfold parsePat
  have hdata : ("**/" ++ pat).toList = '*' :: '*' :: '/' :: pat.toList := by
    show ("**/" ++ pat).data = _
    rw [String.data_append]
    rfl
  rw [hdata, splitOnPred_doublestar_slash]
  rfl

/-- Helper: a pattern whose text starts with `**/` parses to a `**`
component followed by the rest. -/
theorem parsePat_marker_chars (cs : List Char) (pat : String)
    (hp : pat.toList = '*' :: '*' :: '/' :: cs) :
    parsePat pat = "**" :: parsePat (String.mk cs) := by
  unfold parsePat
  rw [hp, splitOnPred_doublestar_slash]
  rfl

/-- Helper: a leading slash is dropped by pattern parsing. -/
theorem parsePat_slash (rest : List Char) (pat : String)
    (hp : pat.toList = '/' :: rest) :
    parsePat pat = parsePat (String.mk rest) := by
  unfold parsePat
  rw [hp]
  simp [splitOnPred]

/-- Claim C4, counterexample: for the rooted pattern `/a` over a tree
holding only `sub/a`, the code's expansion (unconditional `**/` prefix,
slash dropped by glob parsing) matches `sub/a`, while the claim's
expansion (rooted, slash stripped) matches nothing. -/
theorem C4_counterexample :
    codeExpand treeW "/a" ≠ claimExpand treeW "/a" := by decide

/-- Claim C4 (amended): for a pattern not starting with `/`, expansion
behaves as the claim says (a pattern already starting with `**/` is
semantically unchanged because the doubled marker matches the same
paths); but a pattern starting with `/` is not rooted: the slash is
simply dropped by glob parsing and `**/` is still prefixed, so `/p`
matches at any depth exactly like `p`. -/
theorem C4_amended_expansion (tree : List (List String)) (pat : String) :
    (pat.toList.head? ≠ some '/' → codeExpand tree pat = claimExpand tree pat)
    ∧ (∀ rest, pat.toList = '/' :: rest →
        codeExpand tree pat = globExpand tree ("**/" ++ String.mk rest)) := by
  constructor
  · intro hh
    unfold claimExpand
    split
    · rename_i rest heq
      exact absurd (by rw [heq]; rfl) hh
    · rename_i cs heq
      unfold codeExpand globExpand
      apply List.filter_congr
      intro path _
      rw [parsePat_prepend, parsePat_marker_chars cs pat heq]
      exact globMatch_doublestar _ path
    · rfl
  · intro rest hp
    unfold codeExpand globExpand
    apply List.filter_congr
    intro path _
    rw [parsePat_prepend, parsePat_prepend, parsePat_slash rest pat hp]

/-- Witness for the amended claim C4 on the pattern `**/a`, which does
not start with a slash. -/
theorem C4_amended_witness :
    (("**/a" : String).toList.head? ≠ some '/')
    ∧ codeExpand treeW "**/a" = claimExpand treeW "**/a" :=
  ⟨by decide, (C4_amended_expansion treeW "**/a").1 (by decide)⟩

/-- Helper: the included-files pass returns, in declaration order, the
concatenation of the expansions of all qualifying patterns. -/
theorem includedFiles_ok (glob : String → List String) :
    ∀ (lines fs : List String),
      includedFiles glob lines = .ok fs →
      fs = (lines.filter qualifiesLfs).flatMap (fun l => find_lfs_files glob (linePat l)) := by
  intro lines
  induction lines with
  | nil =>
    intro fs h
    cases h
    rfl
  | cons line rest ih =>
    intro fs h
    unfold includedFiles at h
    cases hq : is_lfs_attribute (pySplit line) with
    | error e =>
      simp only [hq] at h
      exact Except.noConfusion h
    | ok q =>
      simp only [hq] at h
      cases hr : includedFiles glob rest with
      | error e =>
        simp only [hr] at h
        exact Except.noConfusion h
      | ok tl =>
        simp only [hr] at h
        have htl := ih tl hr
        cases q with
        | false =>
          simp only [Bool.false_eq_true, if_false] at h
          injection h with h
          subst h
          have hql : qualifiesLfs line = false := by
            unfold qualifiesLfs
            rw [hq]
          simp [List.filter_cons, hql, htl]
        | true =>
          rw [if_pos rfl] at h
          cases hp : pySplit line with
          | nil =>
            rw [hp] at hq
            simp [is_lfs_attribute] at hq
          | cons pat restf =>
            simp only [hp] at h
            injection h with h
            subst h
            have hql : qualifiesLfs line = true := by
              unfold qualifiesLfs
              rw [hq]
            have hlp : linePat line = pat := by
              unfold linePat
              rw [hp]
            simp [List.filter_cons, hql, List.flatMap_cons, hlp, htl]

/-- Helper: the excluded-files pass returns, in declaration order, the
concatenation of the expansions of all exclusion patterns. -/
theorem excludedFiles_ok (glob : String → List String) :
    ∀ (lines fs : List String),
      excludedFiles glob lines = .ok fs →
      fs = (lines.filter isExclusionLine).flatMap (fun l => find_lfs_files glob (linePat l)) := by
  intro lines
  induction lines with
  | nil =>
    intro fs h
    cases h
    rfl
  | cons line rest ih =>
    intro fs h
    unfold excludedFiles at h
    by_cases hex : isExclusionLine line = true
    · rw [if_pos hex] at h
      cases hp : pySplit line with
      | nil =>
        simp only [hp] at h
        exact Except.noConfusion h
      | cons pat restf =>
        simp only [hp] at h
        cases hr : excludedFiles glob rest with
        | error e =>
          simp only [hr] at h
          exact Except.noConfusion h
        | ok tl =>
          simp only [hr] at h
          injection h with h
          subst h
          have hlp : linePat line = pat := by
            unfold linePat
            rw [hp]
          simp [List.filter_cons, hex, List.flatMap_cons, hlp, ih tl hr]
    · rw [if_neg hex] at h
      have hql : isExclusionLine line = false := by
        revert hex; cases isExclusionLine line <;> simp
      simp [List.filter_cons, hql, ih fs h]

/-- Helper: a successful `_get_lfs_file_list` computes exactly the
set difference of the two unions. -/
theorem get_lfs_file_list_ok (glob : String → List String) (lines : List String)
    (s : Finset String) (h : get_lfs_file_list glob lines = .ok s) :
    s = includedSet glob lines \ excludedSet glob lines := by
  unfold get_lfs_file_list at h
  cases hi : includedFiles glob lines with
  | error e =>
    simp only [hi] at h
    exact Except.noConfusion h
  | ok files =>
    simp only [hi] at h
    cases he : excludedFiles glob lines with
    | error e =>
      simp only [he] at h
      exact Except.noConfusion h
    | ok excluded =>
      simp only [he] at h
      injection h with h
      subst h
      unfold includedSet excludedSet
      rw [includedFiles_ok glob lines files hi, excludedFiles_ok glob lines excluded he]

/-- Claim C1: for every attribute-file input on which
`_get_lfs_file_list` computes a managed file set, that set equals
(union of expansions of all LFS-qualifying patterns) minus (union of
expansions of all explicit-exclusion patterns), both expanded against
the attribute file's directory, and membership is independent of the
order of the declarations in the file. -/
theorem C1_managed_fileset_is_difference (glob : String → List String)
    (lines : List String) (s : Finset String)
    (h : get_lfs_file_list glob lines = .ok s) :
    s = includedSet glob lines \ excludedSet glob lines
    ∧ ∀ (lines₂ : List String) (s₂ : Finset String),
        lines.Perm lines₂ → get_lfs_file_list glob lines₂ = .ok s₂ →
        ∀ p, p ∈ s₂ ↔ p ∈ s := by
  refine ⟨get_lfs_file_list_ok glob lines s h, ?_⟩
  intro lines₂ s₂ hperm h₂ p
  have hincl : includedSet glob lines = includedSet glob lines₂ := by
    unfold includedSet
    exact List.toFinset_eq_of_perm _ _ ((hperm.filter _).flatMap_right _)
  have hexcl : excludedSet glob lines = excludedSet glob lines₂ := by
    unfold excludedSet
    exact List.toFinset_eq_of_perm _ _ ((hperm.filter _).flatMap_right _)
  rw [get_lfs_file_list_ok glob lines s h, get_lfs_file_list_ok glob lines₂ s₂ h₂,
    hincl, hexcl]

/-- Witness for claim C1 on a two-line attribute file over a fixed
directory tree. -/
theorem C1_witness :
    get_lfs_file_list globW linesW = .ok sW
    ∧ (sW = includedSet globW linesW \ excludedSet globW linesW
       ∧ ∀ (lines₂ : List String) (s₂ : Finset String),
           linesW.Perm lines₂ → get_lfs_file_list globW lines₂ = .ok s₂ →
           ∀ p, p ∈ s₂ ↔ p ∈ sW) :=
  ⟨rfl, C1_managed_fileset_is_difference globW linesW sW rfl⟩

/-- Helper: one step of a ledger-writing loop. -/
theorem ledgerFold_cons (co : String) (val : String × Content → String)
    (fc : String × Content) (rest : List (String × Content)) (st : OCState) :
    ledgerFold co val (fc :: rest) st
      = ledgerFold co val rest (ledgerSet st co fc.1 (val fc)) := rfl

/-- Helper: ledger-writing loops never touch `_have_oid`. -/
theorem ledgerFold_haveOid (co : String) (val : String × Content → String) :
    ∀ (files : List (String × Content)) (st : OCState),
      (ledgerFold co val files st).haveOid = st.haveOid := by
  intro files
  induction files with
  | nil => intro st; rfl
  | cons fc rest ih => intro st; exact ih (ledgerSet st co fc.1 (val fc))

/-- Helper: ledger-writing loops never touch the upload trace. -/
theorem ledgerFold_uploads (co : String) (val : String × Content → String) :
    ∀ (files : List (String × Content)) (st : OCState),
      (ledgerFold co val files st).uploads = st.uploads := by
  intro files
  induction files with
  | nil => intro st; rfl
  | cons fc rest ih => intro st; exact ih (ledgerSet st co fc.1 (val fc))

/-- Helper: entries of other checkouts or other file names are
untouched by a ledger-writing loop. -/
theorem ledgerFold_ledger_other (co : String) (val : String × Content → String) :
    ∀ (files : List (String × Content)) (st : OCState) (c f : String),
      (c = co → ∀ fc ∈ files, fc.1 ≠ f) →
      (ledgerFold co val files st).ledger c f = st.ledger c f := by
  intro files
  induction files with
  | nil => intro st c f _; rfl
  | cons fc rest ih =>
    intro st c f hne
    have hstep : (ledgerSet st co fc.1 (val fc)).ledger c f = st.ledger c f := by
      unfold ledgerSet
      by_cases hc : c = co ∧ f = fc.1
      · exact absurd hc.2.symm (hne hc.1 fc (List.mem_cons_self fc rest))
      · simp [hc]
    have := ih (ledgerSet st co fc.1 (val fc)) c f
      (fun hc g hg => hne hc g (List.mem_cons_of_mem fc hg))
    rw [ledgerFold_cons, this, hstep]

/-- Helper: after a ledger-writing loop, every listed file name holds
the value of some listed file with that name. -/
theorem ledgerFold_ledger_mem (co : String) (val : String × Content → String) :
    ∀ (files : List (String × Content)) (st : OCState) (fn : String),
      (∃ fc ∈ files, fc.1 = fn) →
      ∃ fc ∈ files, fc.1 = fn ∧ (ledgerFold co val files st).ledger co fn = some (val fc) := by
  intro files
  induction files with
  | nil =>
    intro st fn h
    obtain ⟨fc, hfc, _⟩ := h
    exact absurd hfc (List.not_mem_nil fc)
  | cons g rest ih =>
    intro st fn h
    by_cases hrest : ∃ fc ∈ rest, fc.1 = fn
    · obtain ⟨fc, hfc, hfc1, hval⟩ := ih (ledgerSet st co g.1 (val g)) fn hrest
      exact ⟨fc, List.mem_cons_of_mem g hfc, hfc1, hval⟩
    · obtain ⟨fc, hfc, hfc1⟩ := h
      have hg : fc = g := by
        rcases List.mem_cons.mp hfc with hh | hh
        · exact hh
        · exact absurd ⟨fc, hh, hfc1⟩ hrest
      subst hg
      refine ⟨fc, List.mem_cons_self fc rest, hfc1, ?_⟩
      have hother : (ledgerFold co val rest (ledgerSet st co fc.1 (val fc))).ledger co fn
          = (ledgerSet st co fc.1 (val fc)).ledger co fn := by
        apply ledgerFold_ledger_other
        intro _ g hg hgf
        exact hrest ⟨g, hg, hgf⟩
      show (ledgerFold co val rest (ledgerSet st co fc.1 (val fc))).ledger co fn = _
      rw [hother]
      unfold ledgerSet
      simp [hfc1]

/-- Helper: a content identifier is never the empty string (it always
starts with the `sha256:` prefix). -/
theorem mkOid_ne_empty (hash : Content → String) (c : Content) :
    mkOid hash c ≠ "" := by
  intro h
  have hd : (mkOid hash c).data = ("" : String).data := congrArg String.data h
  unfold mkOid at hd
  rw [String.data_append] at hd
  have h2 := List.append_eq_nil.mp hd
  exact absurd h2.1 (by decide)

/-- Helper: with every listed file holding a non-empty ledger entry,
`_check_for_needed_files` succeeds and returns exactly the files whose
identifier is not yet a key of `_have_oid`. -/
theorem check_for_needed_files_spec (st : OCState) (co : String) :
    ∀ files : List (String × Content),
      (∀ fc ∈ files, ∃ oid, st.ledger co fc.1 = some oid ∧ oid ≠ "") →
      check_for_needed_files st co files
        = .ok (files.filter
            (fun fc => (st.haveOid ((st.ledger co fc.1).getD "")).isNone)) := by
  intro files
  induction files with
  | nil => intro _; rfl
  | cons fc rest ih =>
    intro h
    obtain ⟨oid, hoid, hne⟩ := h fc (List.mem_cons_self fc rest)
    have hrest := fun g hg => h g (List.mem_cons_of_mem fc hg)
    unfold check_for_needed_files
    simp only [hoid]
    rw [if_neg hne, ih hrest]
    rw [List.filter_cons]
    simp only [hoid, Option.getD_some]
    by_cases hn : (st.haveOid oid).isNone = true
    · rw [if_pos hn, if_pos hn]
    · rw [if_neg hn, if_neg hn]

/-- Claim C10: after `ObjectCopier._update_oids` has run over a
checkout's managed file list, every ledger entry for that checkout and
those files is `some` identifier of the form `sha256:` followed by a
digest (hence non-empty), and `_check_for_needed_files` called on the
same file list succeeds -- its `RuntimeError` ("has no oid") branch is
unreachable. -/
theorem C10_runtime_error_unreachable (hash : Content → String) (co : String)
    (files : List (String × Content)) (st : OCState) :
    (∀ fn c, (fn, c) ∈ files →
       ∃ d, (update_oids hash co files st).ledger co fn = some ("sha256:" ++ d))
    ∧ ∃ needed,
        check_for_needed_files (update_oids hash co files st) co files = .ok needed := by
  have hentry : ∀ fc ∈ files, ∃ oid,
      (update_oids hash co files st).ledger co fc.1 = some oid ∧ oid ≠ "" := by
    intro fc hfc
    obtain ⟨gc, _, _, hval⟩ :=
      ledgerFold_ledger_mem co (fun fc => mkOid hash fc.2) files st fc.1 ⟨fc, hfc, rfl⟩
    exact ⟨mkOid hash gc.2, hval, mkOid_ne_empty hash gc.2⟩
  constructor
  · intro fn c hmem
    obtain ⟨gc, _, _, hval⟩ :=
      ledgerFold_ledger_mem co (fun fc => mkOid hash fc.2) files st fn ⟨(fn, c), hmem, rfl⟩
    exact ⟨hash gc.2, hval⟩
  · exact ⟨_, check_for_needed_files_spec (update_oids hash co files st) co files hentry⟩

/-- Helper: effect of the non-dry upload bookkeeping loop of
`_copy_lfs_files_for_co` on the ledger, the upload trace and one fixed
identifier `ω` of `_have_oid`. -/
theorem copy_fold_spec (co : String) (ω : String) :
    ∀ (l : List (String × Content)) (s : OCState),
      ((copy_lfs_files_for_co false co l s).ledger = s.ledger)
      ∧ (∀ x ∈ (copy_lfs_files_for_co false co l s).uploads,
          x ∈ s.uploads ∨ (x.1 = co ∧ ∃ fc ∈ l, x.2 = (s.ledger co fc.1).getD ""))
      ∧ ((∀ fc ∈ l, (s.ledger co fc.1).getD "" ≠ ω) →
          (copy_lfs_files_for_co false co l s).haveOid ω = s.haveOid ω)
      ∧ ((∃ fc ∈ l, (s.ledger co fc.1).getD "" = ω) →
          ∃ fn, (copy_lfs_files_for_co false co l s).haveOid ω = some (co, fn)) := by
  intro l
  induction l with
  | nil =>
    intro s
    refine ⟨rfl, ?_, fun _ => rfl, ?_⟩
    · intro x hx
      exact Or.inl hx
    · intro hex
      obtain ⟨fc, hfc, _⟩ := hex
      exact absurd hfc (List.not_mem_nil fc)
  | cons g rest ih =>
    intro s
    have hcons : copy_lfs_files_for_co false co (g :: rest) s
        = copy_lfs_files_for_co false co rest
            { s with
              haveOid := fun o =>
                if o = (s.ledger co g.1).getD "" then some (co, g.1) else s.haveOid o,
              uploads := s.uploads ++ [(co, (s.ledger co g.1).getD "")] } := rfl
    obtain ⟨ihled, ihup, ihno, ihyes⟩ := ih
      { s with
        haveOid := fun o =>
          if o = (s.ledger co g.1).getD "" then some (co, g.1) else s.haveOid o,
        uploads := s.uploads ++ [(co, (s.ledger co g.1).getD "")] }
    refine ⟨?_, ?_, ?_, ?_⟩
    · rw [hcons, ihled]
    · intro x hx
      rw [hcons] at hx
      rcases ihup x hx with hx2 | ⟨hx1, fc, hfc, hx2⟩
      · rcases List.mem_append.mp hx2 with hx3 | hx3
        · exact Or.inl hx3
        · have hx4 : x = (co, (s.ledger co g.1).getD "") := by simpa using hx3
          subst hx4
          exact Or.inr ⟨rfl, g, List.mem_cons_self g rest, rfl⟩
      · exact Or.inr ⟨hx1, fc, List.mem_cons_of_mem g hfc, hx2⟩
    · intro hall
      have hg : (s.ledger co g.1).getD "" ≠ ω := hall g (List.mem_cons_self g rest)
      rw [hcons, ihno (fun fc hfc => hall fc (List.mem_cons_of_mem g hfc))]
      simp only []
      rw [if_neg (fun hh => hg hh.symm)]
    · intro hex
      obtain ⟨fc, hfc, hfcω⟩ := hex
      rcases List.mem_cons.mp hfc with hh | hh
      · subst hh
        by_cases hrest : ∃ gc ∈ rest, (s.ledger co gc.1).getD "" = ω
        · rw [hcons]
          exact ihyes hrest
        · rw [hcons, ihno (fun gc hgc hgcw => hrest ⟨gc, hgc, hgcw⟩)]
          refine ⟨fc.1, ?_⟩
          simp only []
          rw [if_pos hfcω.symm]
      · rw [hcons]
        exact ihyes ⟨fc, hh, hfcω⟩

/-- Helper: effect of one `_loop_over_item` iteration (non-dry) on one
fixed identifier `ω`: an identifier already recorded is preserved and
never re-uploaded; a new identifier present in this checkout is
recorded for it; nothing else changes. -/
theorem loop_over_item_spec (hash : Content → String)
    (coFiles : String → Option (List (String × Content))) (ω : String)
    (hnd : ∀ c fs, coFiles c = some fs → (fs.map Prod.fst).Nodup)
    (co : String) (st st' : OCState)
    (h : loop_over_item hash false coFiles st co = .ok st') :
    (∀ v, st.haveOid ω = some v → st'.haveOid ω = some v)
    ∧ (st.haveOid ω = none → coHasOid hash coFiles ω co = false → st'.haveOid ω = none)
    ∧ (st.haveOid ω = none → coHasOid hash coFiles ω co = true →
        ∃ fn, st'.haveOid ω = some (co, fn))
    ∧ (∀ c', (c', ω) ∈ st'.uploads →
        (c', ω) ∈ st.uploads
        ∨ (st.haveOid ω = none ∧ c' = co ∧ coHasOid hash coFiles ω co = true)) := by
  unfold loop_over_item at h
  cases hcf : coFiles co with
  | none =>
    simp only [hcf] at h
    injection h with h
    subst h
    exact ⟨fun v hv => hv, fun hn _ => hn, fun _ habs => by
      unfold coHasOid at habs
      rw [hcf] at habs
      exact absurd habs (by simp), fun c' hc' => Or.inl hc'⟩
  | some files =>
    simp only [hcf] at h
    have hciff : coHasOid hash coFiles ω co
        = files.any (fun fc => mkOid hash fc.2 == ω) := by
      unfold coHasOid
      rw [hcf]
    by_cases hemp : files = []
    · rw [if_pos hemp] at h
      injection h with h
      subst h
      subst hemp
      refine ⟨fun v hv => hv, fun hn _ => hn, fun _ habs => ?_, fun c' hc' => Or.inl hc'⟩
      rw [hciff] at habs
      exact absurd habs (by simp)
    · rw [if_neg hemp] at h
      have hledS2 : ∀ fc ∈ files,
          (update_oids hash co files (ledgerInitCo st co files)).ledger co fc.1
            = some (mkOid hash fc.2) := by
        intro fc hfc
        obtain ⟨gc, hgc, hgc1, hval⟩ :=
          ledgerFold_ledger_mem co (fun fc => mkOid hash fc.2) files
            (ledgerInitCo st co files) fc.1 ⟨fc, hfc, rfl⟩
        have hgceq : gc = fc :=
          List.inj_on_of_nodup_map (hnd co files hcf) hgc hfc hgc1
        rw [hgceq] at hval
        exact hval
      have hhaveS2 : (update_oids hash co files (ledgerInitCo st co files)).haveOid
          = st.haveOid := by
        unfold update_oids ledgerInitCo
        rw [ledgerFold_haveOid, ledgerFold_haveOid]
      have hupS2 : (update_oids hash co files (ledgerInitCo st co files)).uploads
          = st.uploads := by
        unfold update_oids ledgerInitCo
        rw [ledgerFold_uploads, ledgerFold_uploads]
      have hcheck := check_for_needed_files_spec
        (update_oids hash co files (ledgerInitCo st co files)) co files
        (fun fc hfc => ⟨mkOid hash fc.2, hledS2 fc hfc, mkOid_ne_empty hash fc.2⟩)
      rw [hcheck] at h
      simp only [] at h
      by_cases hnil : files.filter
          (fun fc => ((update_oids hash co files (ledgerInitCo st co files)).haveOid
            (((update_oids hash co files (ledgerInitCo st co files)).ledger co fc.1).getD
              "")).isNone) = []
      · rw [if_pos hnil] at h
        injection h with h
        subst h
        refine ⟨?_, ?_, ?_, ?_⟩
        · intro v hv
          rw [hhaveS2]
          exact hv
        · intro hn _
          rw [hhaveS2]
          exact hn
        · intro hn hhas
          rw [hciff] at hhas
          obtain ⟨fc, hfc, hbeq⟩ := List.any_eq_true.mp hhas
          have hfcω : mkOid hash fc.2 = ω := by simpa using hbeq
          have hpred : ((update_oids hash co files (ledgerInitCo st co files)).haveOid
              (((update_oids hash co files (ledgerInitCo st co files)).ledger co
                fc.1).getD "")).isNone = true := by
            rw [hledS2 fc hfc]
            simp only [Option.getD_some, hfcω, hhaveS2, hn]
            rfl
          exact absurd hnil
            (List.ne_nil_of_mem (List.mem_filter.mpr ⟨hfc, hpred⟩))
        · intro c' hc'
          rw [hupS2] at hc'
          exact Or.inl hc'
      · rw [if_neg hnil] at h
        injection h with h
        subst h
        obtain ⟨cled, cup, cno, cyes⟩ := copy_fold_spec co ω
          (files.filter
            (fun fc => ((update_oids hash co files (ledgerInitCo st co files)).haveOid
              (((update_oids hash co files (ledgerInitCo st co files)).ledger co
                fc.1).getD "")).isNone))
          (update_oids hash co files (ledgerInitCo st co files))
        have hmemf : ∀ fc ∈ files.filter
            (fun fc => ((update_oids hash co files (ledgerInitCo st co files)).haveOid
              (((update_oids hash co files (ledgerInitCo st co files)).ledger co
                fc.1).getD "")).isNone),
            fc ∈ files ∧ (((update_oids hash co files
              (ledgerInitCo st co files)).ledger co fc.1).getD "") = mkOid hash fc.2 := by
          intro fc hfc
          have hf := List.mem_filter.mp hfc
          exact ⟨hf.1, by rw [hledS2 fc hf.1]; rfl⟩
        refine ⟨?_, ?_, ?_, ?_⟩
        · intro v hv
          rw [cno, hhaveS2]
          · exact hv
          · intro fc hfc hfcω
            have hf := List.mem_filter.mp hfc
            have hpred := hf.2
            rw [(hmemf fc hfc).2] at hfcω
            rw [(hmemf fc hfc).2, hfcω, hhaveS2, hv] at hpred
            exact absurd hpred (by simp)
        · intro hn hhas
          rw [hciff] at hhas
          have hall := List.any_eq_false.mp hhas
          rw [cno, hhaveS2]
          · exact hn
          · intro fc hfc hfcω
            have hf := List.mem_filter.mp hfc
            rw [(hmemf fc hfc).2] at hfcω
            exact hall fc hf.1 (by simp [hfcω])
        · intro hn hhas
          rw [hciff] at hhas
          obtain ⟨fc, hfc, hbeq⟩ := List.any_eq_true.mp hhas
          have hfcω : mkOid hash fc.2 = ω := by simpa using hbeq
          have hpred2 : ((update_oids hash co files (ledgerInitCo st co files)).haveOid
              (((update_oids hash co files (ledgerInitCo st co files)).ledger co
                fc.1).getD "")).isNone = true := by
            rw [hledS2 fc hfc]
            simp only [Option.getD_some, hfcω, hhaveS2, hn]
            rfl
          apply cyes
          refine ⟨fc, List.mem_filter.mpr ⟨hfc, hpred2⟩, ?_⟩
          rw [hledS2 fc hfc]
          simpa using hfcω
        · intro c' hc'
          rcases cup (c', ω) hc' with hx | ⟨hx1, fc, hfc, hx2⟩
          · rw [hupS2] at hx
            exact Or.inl hx
          · have hf := List.mem_filter.mp hfc
            have hfcω : mkOid hash fc.2 = ω := by
              rw [(hmemf fc hfc).2] at hx2
              exact hx2.symm
            have hnone : st.haveOid ω = none := by
              have hp := hf.2
              rw [(hmemf fc hfc).2, hfcω, hhaveS2] at hp
              cases hst : st.haveOid ω
              · rfl
              · rw [hst] at hp
                exact absurd hp (by simp)
            refine Or.inr ⟨hnone, hx1, ?_⟩
            rw [hciff]
            exact List.any_eq_true.mpr ⟨fc, hf.1, by simp [hfcω]⟩

/-- Helper: invariant of the checkout loop for one fixed identifier
`ω`: the first checkout (in iteration order) holding a file with that
identifier is the one recorded for it, and the only one that ever
uploads it. -/
theorem loopList_spec (hash : Content → String)
    (coFiles : String → Option (List (String × Content))) (ω : String)
    (hnd : ∀ c fs, coFiles c = some fs → (fs.map Prod.fst).Nodup) :
    ∀ (cs : List String) (st st' : OCState),
      loopList hash false coFiles cs st = .ok st' →
      ((∀ v, st.haveOid ω = some v →
          st'.haveOid ω = some v
          ∧ ∀ c', (c', ω) ∈ st'.uploads → (c', ω) ∈ st.uploads)
       ∧ (st.haveOid ω = none →
            (cs.filter (coHasOid hash coFiles ω)).head? = none →
            st'.haveOid ω = none
            ∧ ∀ c', (c', ω) ∈ st'.uploads → (c', ω) ∈ st.uploads)
       ∧ (∀ co₁, st.haveOid ω = none →
            (cs.filter (coHasOid hash coFiles ω)).head? = some co₁ →
            (∃ fn, st'.haveOid ω = some (co₁, fn))
            ∧ ∀ c', (c', ω) ∈ st'.uploads → (c', ω) ∈ st.uploads ∨ c' = co₁)) := by
  intro cs
  induction cs with
  | nil =>
    intro st st' h
    injection h with h
    subst h
    refine ⟨fun v hv => ⟨hv, fun _ hc' => hc'⟩,
      fun hn _ => ⟨hn, fun _ hc' => hc'⟩, ?_⟩
    intro co₁ _ habs
    simp at habs
  | cons co rest ih =>
    intro st st' h
    unfold loopList at h
    cases h1 : loop_over_item hash false coFiles st co with
    | error e =>
      rw [h1] at h
      exact Except.noConfusion h
    | ok st₁ =>
      simp only [h1] at h
      obtain ⟨s1, s2, s3, s4⟩ := loop_over_item_spec hash coFiles ω hnd co st st₁ h1
      obtain ⟨i1, i2, i3⟩ := ih st₁ st' h
      by_cases hco : coHasOid hash coFiles ω co = true
      · have hfil : ((co :: rest).filter (coHasOid hash coFiles ω)).head? = some co := by
          simp [List.filter_cons, hco]
        refine ⟨?_, ?_, ?_⟩
        · intro v hv
          obtain ⟨j1, j2⟩ := i1 v (s1 v hv)
          refine ⟨j1, fun c' hc' => ?_⟩
          rcases s4 c' (j2 c' hc') with hin | ⟨hn, _, _⟩
          · exact hin
          · rw [hv] at hn
            exact Option.noConfusion hn
        · intro hn hhead
          rw [hfil] at hhead
          exact Option.noConfusion hhead
        · intro co₁ hn hhead
          rw [hfil] at hhead
          injection hhead with hhead
          subst hhead
          obtain ⟨fn, hfn⟩ := s3 hn hco
          obtain ⟨j1, j2⟩ := i1 (co, fn) hfn
          refine ⟨⟨fn, j1⟩, fun c' hc' => ?_⟩
          rcases s4 c' (j2 c' hc') with hin | ⟨_, hc'eq, _⟩
          · exact Or.inl hin
          · exact Or.inr hc'eq
      · have hcof : coHasOid hash coFiles ω co = false := by
          revert hco
          cases coHasOid hash coFiles ω co <;> simp
        have hfil : ((co :: rest).filter (coHasOid hash coFiles ω))
            = rest.filter (coHasOid hash coFiles ω) := by
          simp [List.filter_cons, hcof]
        refine ⟨?_, ?_, ?_⟩
        · intro v hv
          obtain ⟨j1, j2⟩ := i1 v (s1 v hv)
          refine ⟨j1, fun c' hc' => ?_⟩
          rcases s4 c' (j2 c' hc') with hin | ⟨hn, _, _⟩
          · exact hin
          · rw [hv] at hn
            exact Option.noConfusion hn
        · intro hn hhead
          rw [hfil] at hhead
          obtain ⟨j1, j2⟩ := i2 (s2 hn hcof) hhead
          refine ⟨j1, fun c' hc' => ?_⟩
          rcases s4 c' (j2 c' hc') with hin | ⟨_, _, habs⟩
          · exact hin
          · exact absurd habs (by simp [hcof])
        · intro co₁ hn hhead
          rw [hfil] at hhead
          obtain ⟨j1, j2⟩ := i3 co₁ (s2 hn hcof) hhead
          refine ⟨j1, fun c' hc' => ?_⟩
          rcases j2 c' hc' with hin | hceq
          · rcases s4 c' hin with hin2 | ⟨_, _, habs⟩
            · exact Or.inl hin2
            · exact absurd habs (by simp [hcof])
          · exact Or.inr hceq

/-- Claim C2: over a non-dry `ObjectCopier` run (branches then tags,
each checkout's managed files having distinct paths), for every content
identifier `ω` the UploadedObjectIndex ends with its sole entry for `ω`
attributed to the checkout processed first among those containing a
file with that content, and `ω` is only ever uploaded from that first
checkout -- never re-uploaded from a later one. -/
theorem C2_content_dedup (hash : Content → String)
    (coFiles : String → Option (List (String × Content)))
    (branches tags : List String) (st' : OCState) (ω : String)
    (hnd : ∀ c fs, coFiles c = some fs → (fs.map Prod.fst).Nodup)
    (hrun : oc_loop hash false coFiles branches tags ocInit = .ok st') :
    (∀ co fn, st'.haveOid ω = some (co, fn) →
        ((branches ++ tags).filter (coHasOid hash coFiles ω)).head? = some co)
    ∧ (∀ co₁, ((branches ++ tags).filter (coHasOid hash coFiles ω)).head? = some co₁ →
        ∃ fn, st'.haveOid ω = some (co₁, fn))
    ∧ (∀ co, (co, ω) ∈ st'.uploads →
        ((branches ++ tags).filter (coHasOid hash coFiles ω)).head? = some co) := by
  unfold oc_loop at hrun
  obtain ⟨i1, i2, i3⟩ :=
    loopList_spec hash coFiles ω hnd (branches ++ tags) ocInit st' hrun
  have hnone : ocInit.haveOid ω = none := rfl
  cases hhead : ((branches ++ tags).filter (coHasOid hash coFiles ω)).head? with
  | none =>
    obtain ⟨j1, j2⟩ := i2 hnone hhead
    refine ⟨?_, ?_, ?_⟩
    · intro co fn hfn
      rw [j1] at hfn
      exact Option.noConfusion hfn
    · intro co₁ habs
      exact Option.noConfusion habs
    · intro co hc
      exact absurd (j2 co hc) (List.not_mem_nil _)
  | some co₁ =>
    obtain ⟨⟨fn₁, hfn₁⟩, j2⟩ := i3 co₁ hnone hhead
    refine ⟨?_, ?_, ?_⟩
    · intro co fn hco
      rw [hfn₁] at hco
      injection hco with hco
      have hcoeq : co₁ = co := congrArg Prod.fst hco
      rw [hcoeq]
    · intro co₂ hh
      injection hh with hh
      subst hh
      exact ⟨fn₁, hfn₁⟩
    · intro co hc
      rcases j2 co hc with hin | hceq
      · exact absurd hin (List.not_mem_nil _)
      · rw [hceq]

/-- Witness for claim C2: a branch `b1` and a tag `t1` whose managed
files `f1` and `f2` share the content `X`; the index attributes
`sha256:X` to `b1`, the checkout processed first. -/
theorem C2_witness :
    (∀ c fs, coFilesW c = some fs → (fs.map Prod.fst).Nodup)
    ∧ ((∀ co fn, ocStW.haveOid "sha256:X" = some (co, fn) →
          ((["b1"] ++ ["t1"]).filter (coHasOid hashW coFilesW "sha256:X")).head? = some co)
       ∧ (∀ co₁,
            ((["b1"] ++ ["t1"]).filter (coHasOid hashW coFilesW "sha256:X")).head?
              = some co₁ →
            ∃ fn, ocStW.haveOid "sha256:X" = some (co₁, fn))
       ∧ (∀ co, (co, "sha256:X") ∈ ocStW.uploads →
          ((["b1"] ++ ["t1"]).filter (coHasOid hashW coFilesW "sha256:X")).head?
            = some co)) := by
  have hndW : ∀ c fs, coFilesW c = some fs → (fs.map Prod.fst).Nodup := by
    intro c fs h
    unfold coFilesW at h
    split at h
    · injection h with h
      subst h
      decide
    · split at h
      · injection h with h
        subst h
        decide
      · exact Option.noConfusion h
  exact ⟨hndW, C2_content_dedup hashW coFilesW ["b1"] ["t1"] ocStW "sha256:X" hndW rfl⟩

/-- Helper: one step of the OidMapper ledger initialisation. -/
theorem om_init_cons (co : String) (f : MFile) (rest : List MFile) (st : OMState) :
    om_init co (f :: rest) st
      = om_init co rest
          { st with
            ledger := fun c n => if c = co ∧ n = f.name then some "" else st.ledger c n } :=
  rfl

/-- Helper: dict-key insertion membership. -/
theorem insertOid_mem (l : List String) (x o : String) :
    o ∈ insertOid l x ↔ o ∈ l ∨ o = x := by
  unfold insertOid
  by_cases hx : x ∈ l
  · rw [if_pos hx]
    constructor
    · exact Or.inl
    · rintro (h | rfl)
      · exact h
      · exact hx
  · rw [if_neg hx]
    simp

/-- Helper: ledger initialisation preserves an entry already set to the
empty string. -/
theorem om_init_ledger_persist (co : String) :
    ∀ (files : List MFile) (st : OMState) (n : String),
      st.ledger co n = some "" →
      (om_init co files st).ledger co n = some "" := by
  intro files
  induction files with
  | nil =>
    intro st n h
    exact h
  | cons f rest ih =>
    intro st n h
    rw [om_init_cons]
    apply ih
    by_cases hc : n = f.name
    · simp [hc]
    · simp [hc, h]

/-- Helper: after initialisation every listed file's ledger entry is
the empty string. -/
theorem om_init_ledger_mem (co : String) :
    ∀ (files : List MFile) (st : OMState), ∀ f ∈ files,
      (om_init co files st).ledger co f.name = some "" := by
  intro files
  induction files with
  | nil =>
    intro st f hf
    exact absurd hf (List.not_mem_nil f)
  | cons g rest ih =>
    intro st f hf
    rw [om_init_cons]
    rcases List.mem_cons.mp hf with rfl | hfr
    · apply om_init_ledger_persist
      simp
    · exact ih _ f hfr

/-- Helper: ledger initialisation never touches the oid map. -/
theorem om_init_oids (co : String) :
    ∀ (files : List MFile) (st : OMState), (om_init co files st).oids = st.oids := by
  intro files
  induction files with
  | nil => intro st; rfl
  | cons f rest ih =>
    intro st
    rw [om_init_cons]
    exact ih _

/-- Helper: behaviour of `OidMapper._update_oids` over a file list with
distinct names: it completes, symlink entries are deleted, undecodable
files leave their entry untouched and contribute no identifier, and
entries of other checkouts and names are unchanged. -/
theorem om_update_aux (co : String) :
    ∀ (files : List MFile) (st₀ : OMState),
      (files.map MFile.name).Nodup →
      (∀ f ∈ files, scanOk f) →
      (∀ f ∈ files, f.isSymlink = true → ∃ v, st₀.ledger co f.name = some v) →
      ∃ st', om_update_oids co files st₀ = .ok st'
        ∧ (∀ f ∈ files, f.isSymlink = true → st'.ledger co f.name = none)
        ∧ (∀ f ∈ files, f.isSymlink = false → f.content = none →
            st'.ledger co f.name = st₀.ledger co f.name)
        ∧ (∀ o ∈ st'.oids, o ∈ st₀.oids
            ∨ ∃ f ∈ files, f.isSymlink = false
                ∧ ∃ lines, f.content = some lines ∧ scan_for_oid lines = .ok (some o))
        ∧ (∀ c n, (∀ f ∈ files, ¬(c = co ∧ n = f.name)) →
            st'.ledger c n = st₀.ledger c n) := by
  intro files
  induction files with
  | nil =>
    intro st₀ _ _ _
    exact ⟨st₀, rfl, by simp, by simp, fun o ho => Or.inl ho, fun _ _ _ => rfl⟩
  | cons f rest ih =>
    intro st₀ hnd hok hpres
    have hnd' := hnd
    rw [List.map_cons, List.nodup_cons] at hnd'
    obtain ⟨hfnot, hndr⟩ := hnd'
    have hokr : ∀ g ∈ rest, scanOk g := fun g hg => hok g (List.mem_cons_of_mem f hg)
    have hnamene : ∀ g ∈ rest, g.name ≠ f.name := by
      intro g hg hne
      exact hfnot (hne ▸ List.mem_map_of_mem MFile.name hg)
    cases hsym : f.isSymlink with
    | true =>
      obtain ⟨v, hv⟩ := hpres f (List.mem_cons_self f rest) hsym
      have hstep : om_update_one co st₀ f
          = .ok { st₀ with
                  ledger := fun c n =>
                    if c = co ∧ n = f.name then none else st₀.ledger c n } := by
        unfold om_update_one
        rw [if_pos hsym]
        simp only [hv]
      have hpresr : ∀ g ∈ rest, g.isSymlink = true →
          ∃ w, ({ st₀ with
                  ledger := fun c n =>
                    if c = co ∧ n = f.name then none
                    else st₀.ledger c n } : OMState).ledger co g.name = some w := by
        intro g hg hgs
        obtain ⟨w, hw⟩ := hpres g (List.mem_cons_of_mem f hg) hgs
        refine ⟨w, ?_⟩
        simp only []
        rw [if_neg (fun hc => hnamene g hg hc.2)]
        exact hw
      obtain ⟨st', hrun, c1, c2, c3, c4⟩ := ih _ hndr hokr hpresr
      refine ⟨st', ?_, ?_, ?_, ?_, ?_⟩
      · unfold om_update_oids
        rw [hstep]
        exact hrun
      · intro g hg hgs
        rcases List.mem_cons.mp hg with rfl | hgr
        · rw [c4 co g.name (fun x hx hc => hnamene x hx hc.2.symm)]
          simp
        · exact c1 g hgr hgs
      · intro g hg hgn hgc
        rcases List.mem_cons.mp hg with rfl | hgr
        · rw [hgn] at hsym
          exact Bool.noConfusion hsym
        · rw [c2 g hgr hgn hgc]
          simp only []
          rw [if_neg (fun hc => hnamene g hgr hc.2)]
      · intro o ho
        rcases c3 o ho with hin | ⟨g, hg, hrest⟩
        · exact Or.inl hin
        · exact Or.inr ⟨g, List.mem_cons_of_mem f hg, hrest⟩
      · intro c n hnone
        rw [c4 c n (fun g hg => hnone g (List.mem_cons_of_mem f hg))]
        simp only []
        rw [if_neg (hnone f (List.mem_cons_self f rest))]
    | false =>
      have hpresr : ∀ g ∈ rest, g.isSymlink = true →
          ∃ w, st₀.ledger co g.name = some w :=
        fun g hg hgs => hpres g (List.mem_cons_of_mem f hg) hgs
      cases hcon : f.content with
      | none =>
        have hstep : om_update_one co st₀ f = .ok st₀ := by
          unfold om_update_one
          rw [if_neg (by rw [hsym]; exact Bool.noConfusion)]
          simp only [hcon]
        obtain ⟨st', hrun, c1, c2, c3, c4⟩ := ih st₀ hndr hokr hpresr
        refine ⟨st', ?_, ?_, ?_, ?_, ?_⟩
        · unfold om_update_oids
          rw [hstep]
          exact hrun
        · intro g hg hgs
          rcases List.mem_cons.mp hg with rfl | hgr
          · rw [hgs] at hsym
            exact Bool.noConfusion hsym
          · exact c1 g hgr hgs
        · intro g hg hgn hgc
          rcases List.mem_cons.mp hg with rfl | hgr
          · exact c4 co g.name (fun x hx hc => hnamene x hx hc.2.symm)
          · exact c2 g hgr hgn hgc
        · intro o ho
          rcases c3 o ho with hin | ⟨g, hg, hrest⟩
          · exact Or.inl hin
          · exact Or.inr ⟨g, List.mem_cons_of_mem f hg, hrest⟩
        · intro c n hnone
          exact c4 c n (fun g hg => hnone g (List.mem_cons_of_mem f hg))
      | some lines =>
        obtain ⟨r, hr⟩ := hok f (List.mem_cons_self f rest) lines hcon
        cases r with
        | none =>
          have hstep : om_update_one co st₀ f = .ok st₀ := by
            unfold om_update_one
            rw [if_neg (by rw [hsym]; exact Bool.noConfusion)]
            simp only [hcon, hr]
          obtain ⟨st', hrun, c1, c2, c3, c4⟩ := ih st₀ hndr hokr hpresr
          refine ⟨st', ?_, ?_, ?_, ?_, ?_⟩
          · unfold om_update_oids
            rw [hstep]
            exact hrun
          · intro g hg hgs
            rcases List.mem_cons.mp hg with rfl | hgr
            · rw [hgs] at hsym
              exact Bool.noConfusion hsym
            · exact c1 g hgr hgs
          · intro g hg hgn hgc
            rcases List.mem_cons.mp hg with rfl | hgr
            · rw [hcon] at hgc
              exact Option.noConfusion hgc
            · exact c2 g hgr hgn hgc
          · intro o ho
            rcases c3 o ho with hin | ⟨g, hg, hrest⟩
            · exact Or.inl hin
            · exact Or.inr ⟨g, List.mem_cons_of_mem f hg, hrest⟩
          · intro c n hnone
            exact c4 c n (fun g hg => hnone g (List.mem_cons_of_mem f hg))
        | some oid =>
          have hstep : om_update_one co st₀ f
              = .ok { ledger := fun c n =>
                        if c = co ∧ n = f.name then some oid else st₀.ledger c n,
                      oids := insertOid st₀.oids oid } := by
            unfold om_update_one
            rw [if_neg (by rw [hsym]; exact Bool.noConfusion)]
            simp only [hcon, hr]
          have hpresr2 : ∀ g ∈ rest, g.isSymlink = true →
              ∃ w, ({ ledger := fun c n =>
                        if c = co ∧ n = f.name then some oid else st₀.ledger c n,
                      oids := insertOid st₀.oids oid } : OMState).ledger co g.name
                  = some w := by
            intro g hg hgs
            obtain ⟨w, hw⟩ := hpresr g hg hgs
            refine ⟨w, ?_⟩
            simp only []
            rw [if_neg (fun hc => hnamene g hg hc.2)]
            exact hw
          obtain ⟨st', hrun, c1, c2, c3, c4⟩ := ih _ hndr hokr hpresr2
          refine ⟨st', ?_, ?_, ?_, ?_, ?_⟩
          · unfold om_update_oids
            rw [hstep]
            exact hrun
          · intro g hg hgs
            rcases List.mem_cons.mp hg with rfl | hgr
            · rw [hgs] at hsym
              exact Bool.noConfusion hsym
            · exact c1 g hgr hgs
          · intro g hg hgn hgc
            rcases List.mem_cons.mp hg with rfl | hgr
            · rw [hcon] at hgc
              exact Option.noConfusion hgc
            · rw [c2 g hgr hgn hgc]
              simp only []
              rw [if_neg (fun hc => hnamene g hgr hc.2)]
          · intro o ho
            rcases c3 o ho with hin | ⟨g, hg, hrest⟩
            · rcases (insertOid_mem st₀.oids oid o).mp hin with hin2 | rfl
              · exact Or.inl hin2
              · exact Or.inr ⟨f, List.mem_cons_self f rest, hsym, lines, hcon, hr⟩
            · exact Or.inr ⟨g, List.mem_cons_of_mem f hg, hrest⟩
          · intro c n hnone
            rw [c4 c n (fun g hg => hnone g (List.mem_cons_of_mem f hg))]
            simp only []
            rw [if_neg (hnone f (List.mem_cons_self f rest))]

/-- Claim C8: in a checkout processed by `OidMapper` (ledger entries
initialised, file names distinct, decodable files well formed), the
`_update_oids` pass completes without propagating an exception, every
symlink is skipped with its ledger entry removed, every file whose
content fails to decode keeps its initialised empty entry and
contributes nothing, and every harvested identifier comes from a
decodable non-symlink file. -/
theorem C8_symlink_and_decode_recovery (co : String) (files : List MFile)
    (st : OMState) (hnd : (files.map MFile.name).Nodup)
    (hok : ∀ f ∈ files, scanOk f) :
    ∃ st', om_update_oids co files (om_init co files st) = .ok st'
      ∧ (∀ f ∈ files, f.isSymlink = true → st'.ledger co f.name = none)
      ∧ (∀ f ∈ files, f.isSymlink = false → f.content = none →
          st'.ledger co f.name = some "")
      ∧ (∀ o ∈ st'.oids, o ∈ st.oids
          ∨ ∃ f ∈ files, f.isSymlink = false
              ∧ ∃ lines, f.content = some lines ∧ scan_for_oid lines = .ok (some o)) := by
  obtain ⟨st', hrun, c1, c2, c3, _⟩ := om_update_aux co files (om_init co files st) hnd hok
    (fun f hf _ => ⟨"", om_init_ledger_mem co files st f hf⟩)
  refine ⟨st', hrun, c1, ?_, ?_⟩
  · intro f hf hfn hfc
    rw [c2 f hf hfn hfc]
    exact om_init_ledger_mem co files st f hf
  · intro o ho
    rcases c3 o ho with hin | hrest
    · rw [om_init_oids co files st] at hin
      exact Or.inl hin
    · exact Or.inr hrest

/-- Witness for claim C8: a symlink, an undecodable binary, and a
well-formed pointer stub processed in one checkout. -/
theorem C8_witness :
    (mfilesW.map MFile.name).Nodup
    ∧ (∀ f ∈ mfilesW, scanOk f)
    ∧ ∃ st', om_update_oids "main" mfilesW (om_init "main" mfilesW omStW) = .ok st'
        ∧ (∀ f ∈ mfilesW, f.isSymlink = true → st'.ledger "main" f.name = none)
        ∧ (∀ f ∈ mfilesW, f.isSymlink = false → f.content = none →
            st'.ledger "main" f.name = some "")
        ∧ (∀ o ∈ st'.oids, o ∈ omStW.oids
            ∨ ∃ f ∈ mfilesW, f.isSymlink = false
                ∧ ∃ lines, f.content = some lines
                    ∧ scan_for_oid lines = .ok (some o)) := by
  have hok : ∀ f ∈ mfilesW, scanOk f := by
    intro f hf
    unfold mfilesW at hf
    rcases List.mem_cons.mp hf with rfl | hf
    · intro lines h
      injection h with h
      subst h
      exact ⟨none, rfl⟩
    rcases List.mem_cons.mp hf with rfl | hf
    · intro lines h
      exact Option.noConfusion h
    rcases List.mem_cons.mp hf with rfl | hf
    · intro lines h
      injection h with h
      subst h
      exact ⟨some "sha256:abc", rfl⟩
    · exact absurd hf (List.not_mem_nil f)
  exact ⟨by decide, hok, C8_symlink_and_decode_recovery "main" mfilesW omStW (by decide) hok⟩

end RubinLfs
